import Mathlib

/-!
Shallow embedding of the two scripts
`scripts/primer_pair_profiling_batch.py` and `scripts/split_silva.py`.

Python strings are modelled as Lean `String` / `List Char` (code points),
Python `dict` (insertion-ordered) as association lists whose update keeps
the position of an existing key and appends a fresh key at the end,
Python exceptions as `Except String`.  Counts are stored exactly as the
code stores them: the raw text of the second tab field (`items[1]`), with
the integer `0` inserted only by the zero-fill step of `print_tallies`.
-/

/-- A value held in the inner per-sample dict of `primer_pairs`.  The code
stores the raw string `items[1]` at ingestion time and the Python integer
`0` at zero-fill time, so the dict holds a mix of `str` and `int`. -/
inductive Val where
  | vstr (s : String)
  | vint (n : Int)
deriving DecidableEq, Repr

/-- Python `str(v)`: identity on a stored string, decimal rendering of an
integer (the only integer ever stored is `0`, rendered `"0"`). -/
def pyValStr : Val → String
  | .vstr s => s
  | .vint n => toString n

/-- Model of Python `str.split(sep)` for a one-character separator:
splitting the empty string yields `[""]`, and every occurrence of the
separator starts a new field. -/
def splitChar (sep : Char) : List Char → List (List Char)
  | [] => [[]]
  | c :: rest =>
    let r := splitChar sep rest
    if c = sep then [] :: r
    else
      match r with
      | [] => [[c]]
      | g :: gs => (c :: g) :: gs

/-- Scan step of Python `str.replace(old, new)` on code-point lists: scan
left to right, replacing each non-overlapping occurrence of `pat`.  The
fuel only bounds the recursion: every step consumes at least one
character, so any fuel at least the list's length gives the replace
semantics.  (Only used with a non-empty `pat`; an empty `pat` is treated
as no occurrence.) -/
def replaceAllAux (pat repl : List Char) : Nat → List Char → List Char
  | _, [] => []
  | 0, l => l
  | fuel + 1, c :: rest =>
    if pat.isPrefixOf (c :: rest) && !pat.isEmpty then
      repl ++ replaceAllAux pat repl fuel ((c :: rest).drop pat.length)
    else
      c :: replaceAllAux pat repl fuel rest

/-- Model of Python `str.replace(old, new)` on code-point lists. -/
def replaceAll (pat repl l : List Char) : List Char :=
  replaceAllAux pat repl l.length l

/-- Digit tail of Python `int()` parsing: after a first digit, accept
digits, with single underscores allowed strictly between digits. -/
def parseDigitsAux : List Char → Nat → Option Nat
  | [], acc => some acc
  | '_' :: rest, acc =>
    match rest with
    | [] => none
    | c :: rest2 =>
      if c.isDigit then parseDigitsAux rest2 (acc * 10 + (c.toNat - 48)) else none
  | c :: rest, acc =>
    if c.isDigit then parseDigitsAux rest (acc * 10 + (c.toNat - 48)) else none

/-- Unsigned part of Python `int()` parsing: a non-empty digit sequence
(with optional internal underscores). -/
def parseDigits : List Char → Option Nat
  | [] => none
  | c :: rest => if c.isDigit then parseDigitsAux rest (c.toNat - 48) else none

/-- Model of Python `int(s)` on a string (ASCII model): strip surrounding
whitespace, an optional single sign immediately followed by the digits,
`none` when the text does not parse (Python raises `ValueError`). -/
def pyInt (s : String) : Option Int :=
  let t := (s.toList.dropWhile Char.isWhitespace).reverse.dropWhile Char.isWhitespace |>.reverse
  match t with
  | '+' :: rest => (parseDigits rest).map Int.ofNat
  | '-' :: rest => (parseDigits rest).map (fun n => -(Int.ofNat n))
  | u => (parseDigits u).map Int.ofNat

/-- Python `int(v)` on a stored cell: parse a stored string, identity on
the stored integer `0`. -/
def pyValInt : Val → Option Int
  | .vstr s => pyInt s
  | .vint n => some n

/-- Python `str.lower()` (ASCII model), as used by the sort key
`x[0].lower()`. -/
def pyLower (s : String) : String :=
  String.mk (s.data.map Char.toLower)

/-- Code-point lexicographic strict comparison of strings, Python's `<`
on `str` values (and the comparison Python's sort key tuples use). -/
def strLtB : List Char → List Char → Bool
  | [], [] => false
  | [], _ :: _ => true
  | _ :: _, [] => false
  | c1 :: r1, c2 :: r2 =>
    if c1 < c2 then true
    else if c2 < c1 then false
    else strLtB r1 r2

/-- Python `a <= b` on strings: not `b < a`. -/
def strLE (a b : String) : Prop :=
  strLtB b.data a.data = false

/-- Lookup in an insertion-ordered dict (first matching key). -/
def dictGet? {ν : Type} : List (String × ν) → String → Option ν
  | [], _ => none
  | (k2, v) :: rest, k => if k2 = k then some v else dictGet? rest k

/-- Assignment `d[k] = v` in an insertion-ordered dict: overwrite in place
when the key exists, append at the end when it is fresh. -/
def dictSet {ν : Type} : List (String × ν) → String → ν → List (String × ν)
  | [], k, v => [(k, v)]
  | (k2, v2) :: rest, k, v =>
    if k2 = k then (k, v) :: rest else (k2, v2) :: dictSet rest k v

/-- The global `primer_pairs = defaultdict(dict)`: primer-pair identity to
(sample name to stored cell), both levels insertion-ordered. -/
def Store : Type := List (String × List (String × Val))

/-- Line 138, `primer_pairs[items[0]][file_name] = items[1]`: the
`defaultdict` creates an empty inner dict for a fresh pair, then the
sample entry is written. -/
def storeIngest (st : Store) (pair sample : String) (v : Val) : Store :=
  dictSet st pair (dictSet ((dictGet? st pair).getD []) sample v)

/-- Lines 136-138: one collaborator output line is split on tabs;
`items[1]` on a line with fewer than two fields raises `IndexError`,
otherwise the raw second field is stored for `(items[0], file_name)` and
any further fields are ignored. -/
def ingestLine (st : Store) (sampleName line : String) : Except String Store :=
  match splitChar '\t' line.toList with
  | f0 :: f1 :: _ => .ok (storeIngest st (String.mk f0) sampleName (.vstr (String.mk f1)))
  | _ => .error "IndexError"

/-- A whole run of ingestions `(pair, sample, value)` starting from the
empty store, in order. -/
def buildStore (ops : List (String × String × Val)) : Store :=
  ops.foldl (fun st op => storeIngest st op.1 op.2.1 op.2.2) []

/-- The value the last ingestion recorded for `(pair, sample)`, if any. -/
def lastIngested (ops : List (String × String × Val)) (pair sample : String) : Option Val :=
  ops.foldl (fun acc op => if op.1 = pair ∧ op.2.1 = sample then some op.2.2 else acc) none

/-- The raw cell stored for `(pair, sample)`, if any. -/
def cellGet (st : Store) (pair sample : String) : Option Val :=
  (dictGet? st pair).bind (fun inner => dictGet? inner sample)

/-- The sparse-to-dense resolution of lines 159-163: the stored cell when
the sample is present in the pair's dict, the inserted `0` otherwise. -/
def countFor (st : Store) (pair sample : String) : Val :=
  (cellGet st pair sample).getD (.vint 0)

/-- Lines 158-163 for one pair: walk the (sorted) sample names in order;
a missing sample is first given the Python integer `0`, then the cell is
parsed with `int()` and added to the running total (`ValueError` when the
stored text does not parse). -/
def zeroFillAndTotal (inner : List (String × Val)) (names : List String) (tot : Int) :
    Except String (List (String × Val) × Int) :=
  match names with
  | [] => .ok (inner, tot)
  | n :: ns =>
    match dictGet? inner n with
    | some v =>
      match pyValInt v with
      | some k => zeroFillAndTotal inner ns (tot + k)
      | none => .error "ValueError"
    | none => zeroFillAndTotal (dictSet inner n (.vint 0)) ns (tot + 0)

/-- Lines 156-165: iterate the store's pairs in insertion order,
zero-filling each inner dict in place and recording the pair's total in
`primer_totals` (which therefore lists the pairs in the same order). -/
def computeTotals (st : Store) (names : List String) :
    Except String (Store × List (String × Int)) :=
  match st with
  | [] => .ok ([], [])
  | (p, inner) :: rest =>
    match zeroFillAndTotal inner names 0 with
    | .error e => .error e
    | .ok (inner2, t) =>
      match computeTotals rest names with
      | .error e => .error e
      | .ok (rest2, totals) => .ok ((p, inner2) :: rest2, (p, t) :: totals)

/-- The row order of line 167: `key=lambda x: (-x[1], x[0].lower())`
compared ascending, i.e. total descending, then the lowercased identity
ascending (code-point order, as in Python). -/
def rowLE (a b : String × Int) : Prop :=
  b.2 < a.2 ∨ (a.2 = b.2 ∧ strLE (pyLower a.1) (pyLower b.1))

instance : DecidableRel strLE := fun a b => by
  unfold strLE; infer_instance

instance : DecidableRel rowLE := fun a b => by
  unfold rowLE; infer_instance

/-- Line 167, `sorted(primer_totals.items(), key=...)`: Python's sort is
stable, so it is modelled by (stable) insertion sort under `rowLE`. -/
def sortRows (totals : List (String × Int)) : List (String × Int) :=
  List.insertionSort rowLE totals

/-- Line 150, `file_names.sort()`: ascending code-point order, modelled by
insertion sort under the lexicographic order on strings. -/
def pySortStrings (l : List String) : List String :=
  List.insertionSort strLE l

/-- Line 154: the header is the literal `"pair\t"` followed by the
tab-join of the (sorted) sample names. -/
def headerLine (names : List String) : String :=
  "pair\t" ++ String.intercalate "\t" names

/-- Lines 170-171: collect `primer_pairs[pair][file_n]` for each sample
name in order; a missing key would raise `KeyError`. -/
def collectCells (st2 : Store) (p : String) : List String → Except String (List Val)
  | [] => .ok []
  | n :: ns =>
    match dictGet? st2 p with
    | none => .error "KeyError"
    | some inner =>
      match dictGet? inner n with
      | none => .error "KeyError"
      | some v =>
        match collectCells st2 p ns with
        | .error e => .error e
        | .ok vs => .ok (v :: vs)

/-- Lines 168-175: one data row, `pair + "\t" + "\t".join(map(str, freqs))`. -/
def emitRow (st2 : Store) (names : List String) (p : String) : Except String String :=
  match collectCells st2 p names with
  | .error e => .error e
  | .ok vs => .ok (p ++ "\t" ++ String.intercalate "\t" (vs.map pyValStr))

/-- The data rows, in sorted-row order. -/
def emitRows (st2 : Store) (names : List String) : List (String × Int) → Except String (List String)
  | [] => .ok []
  | row :: rest =>
    match emitRow st2 names row.1 with
    | .error e => .error e
    | .ok line =>
      match emitRows st2 names rest with
      | .error e => .error e
      | .ok lines => .ok (line :: lines)

/-- `print_tallies` (lines 145-175): sort the sample names, compute the
zero-filled store and the per-pair totals, sort the rows, and emit the
header line followed by the data lines.  Returns the emitted lines, the
store as left behind, and the sorted name list. -/
def printTallies (fileNames : List String) (st : Store) :
    Except String (List String × Store × List String) :=
  match computeTotals st (pySortStrings fileNames) with
  | .error e => .error e
  | .ok (st2, totals) =>
    match emitRows st2 (pySortStrings fileNames) (sortRows totals) with
    | .error e => .error e
    | .ok lines =>
      .ok (headerLine (pySortStrings fileNames) :: lines, st2, pySortStrings fileNames)

/-- The per-row total as an arithmetic reading of the original store: the
sum over the supplied names of `int()` of the cell, zero when absent. -/
def innerTotal (inner : List (String × Val)) (names : List String) : Int :=
  (names.map (fun n => (pyValInt ((dictGet? inner n).getD (.vint 0))).getD 0)).sum

/-- Line 121, `file_name.replace("." + args.extension, "")`: every
occurrence of the `.<extension>` substring is removed. -/
def sampleName (fileName ext : String) : String :=
  String.mk (replaceAll ('.' :: ext.toList) [] fileName.toList)

/-- Modelled from the spec (for comparison with `sampleName`): the base
name with only its trailing `.<extension>` suffix stripped. -/
def specSampleName (fileName ext : String) : String :=
  let pat := '.' :: ext.toList
  if pat.isSuffixOf fileName.toList then
    String.mk (fileName.toList.take (fileName.toList.length - pat.length))
  else fileName

/-- `\w` of the Python `re` module (ASCII model). -/
def isWordChar (c : Char) : Bool :=
  c.isAlphanum || c = '_'

/-- Line 57, `re.search(r"\.\w+$", silva_file)`: the match exists exactly
when the text after the last dot is a non-empty run of word characters,
and the match is that final `.<ext>` segment; `none` models the
`AttributeError` raised on `.group()` of a failed search. -/
def fExt? (s : String) : Option String :=
  let rev := s.toList.reverse
  let w := rev.takeWhile isWordChar
  if w.isEmpty then none
  else
    match rev.drop w.length with
    | c :: _ => if c = '.' then some (String.mk ('.' :: w.reverse)) else none
    | [] => none

/-- Line 58, `silva_file.replace(f_ext, "_" + domain + f_ext)`: every
occurrence of the extension substring is replaced. -/
def oFile (silvaFile domain : String) : Option String :=
  (fExt? silvaFile).map (fun e =>
    String.mk (replaceAll e.toList (('_' :: domain.toList) ++ e.toList) silvaFile.toList))

/-- Modelled from the spec (for comparison with `oFile`): `_<domain>`
inserted immediately before the final extension, rest of the path
unchanged. -/
def specOFile (silvaFile domain : String) : Option String :=
  (fExt? silvaFile).map (fun e =>
    String.mk ((silvaFile.toList.take (silvaFile.toList.length - e.toList.length)) ++
      ('_' :: domain.toList) ++ e.toList))

/-- Lines 73-75: `description.split(" ")[1]` then
`re.search(r"^(\w+)\;", ...).group(1)`; `none` models the `IndexError` /
`AttributeError` on a description that does not fit. -/
def extractDomain (description : String) : Option String :=
  match (splitChar ' ' description.toList).drop 1 with
  | [] => none
  | field :: _ =>
    let w := field.takeWhile isWordChar
    if w.isEmpty then none
    else
      match field.drop w.length with
      | ';' :: _ => some (String.mk w)
      | _ => none

/-- Lines 77-80: append the record to its domain's list, creating the
list on first sight of the domain. -/
def addRecord {ρ : Type} (seqs : List (String × List ρ)) (domain : String) (rec : ρ) :
    List (String × List ρ) :=
  match dictGet? seqs domain with
  | some l => dictSet seqs domain (l ++ [rec])
  | none => seqs ++ [(domain, [rec])]

/-- The `main` grouping loop of `split_silva.py` over records given as
`(description, record)` pairs, starting from an accumulator. -/
def buildSeqsFrom {ρ : Type} (seqs : List (String × List ρ)) :
    List (String × ρ) → Except String (List (String × List ρ))
  | [] => .ok seqs
  | (desc, rec) :: rest =>
    match extractDomain desc with
    | none => .error "AttributeError"
    | some d => buildSeqsFrom (addRecord seqs d rec) rest

/-- The grouping loop starting from the empty global `sequences = {}`. -/
def buildSequences {ρ : Type} (recs : List (String × ρ)) :
    Except String (List (String × List ρ)) :=
  buildSeqsFrom [] recs

/-- `write_sequences` (lines 52-60): one `SeqIO.write` call per grouped
domain, to the path `oFile` computes for that domain. -/
def writeTargets {ρ : Type} (silvaFile : String) :
    List (String × List ρ) → Except String (List (String × List ρ))
  | [] => .ok []
  | (d, recs) :: rest =>
    match oFile silvaFile d with
    | none => .error "AttributeError"
    | some f =>
      match writeTargets silvaFile rest with
      | .error e => .error e
      | .ok outs => .ok ((f, recs) :: outs)

theorem strLtB_nil_right : ∀ x : List Char, strLtB x [] = false := by
  intro x
  cases x <;> rfl

theorem strLtB_irrefl : ∀ x : List Char, strLtB x x = false := by
  intro x
  induction x with
  | nil => rfl
  | cons c r ih => simp [strLtB, lt_irrefl, ih]

theorem strLtB_asymm : ∀ x y : List Char, strLtB x y = true → strLtB y x = false := by
  intro x
  induction x with
  | nil =>
    intro y h
    cases y with
    | nil => exact absurd h (by simp [strLtB])
    | cons c r => rfl
  | cons c1 r1 ih =>
    intro y h
    cases y with
    | nil => simp [strLtB] at h
    | cons c2 r2 =>
      simp only [strLtB] at h ⊢
      by_cases h12 : c1 < c2
      · simp [h12, asymm h12]
      · by_cases h21 : c2 < c1
        · rw [if_neg h12, if_pos h21] at h
          cases h
        · rw [if_neg h12, if_neg h21] at h
          simp [h12, h21, ih r2 h]

theorem strLtB_neg_trans : ∀ a b c : List Char,
    strLtB b a = false → strLtB c b = false → strLtB c a = false := by
  intro a
  induction a with
  | nil =>
    intro b c _ _
    exact strLtB_nil_right c
  | cons x xs ih =>
    intro b c h1 h2
    cases b with
    | nil => simp [strLtB] at h1
    | cons y ys =>
      cases c with
      | nil => simp [strLtB] at h2
      | cons z zs =>
        simp only [strLtB] at h1 h2 ⊢
        by_cases hyx : y < x
        · rw [if_pos hyx] at h1
          cases h1
        · rw [if_neg hyx] at h1
          by_cases hzy : z < y
          · rw [if_pos hzy] at h2
            cases h2
          · rw [if_neg hzy] at h2
            have hzx : ¬ z < x := fun hlt => hyx (lt_of_le_of_lt (not_lt.mp hzy) hlt)
            rw [if_neg hzx]
            by_cases hxz : x < z
            · rw [if_pos hxz]
            · rw [if_neg hxz]
              by_cases hxy : x < y
              · exact absurd (lt_of_lt_of_le hxy (not_lt.mp hzy)) hxz
              · rw [if_neg hxy] at h1
                by_cases hyz : y < z
                · exact absurd (lt_of_le_of_lt (not_lt.mp hyx) hyz) hxz
                · rw [if_neg hyz] at h2
                  exact ih ys zs h1 h2

theorem strLE_refl (x : String) : strLE x x :=
  strLtB_irrefl x.data

instance : IsTotal String strLE where
  total a b := by
    unfold strLE
    cases hb : strLtB b.data a.data with
    | false => exact Or.inl rfl
    | true => exact Or.inr (strLtB_asymm _ _ hb)

instance : IsTrans String strLE where
  trans a b c h1 h2 := strLtB_neg_trans a.data b.data c.data h1 h2

instance : IsTotal (String × Int) rowLE where
  total a b := by
    rcases lt_trichotomy a.2 b.2 with h | h | h
    · exact Or.inr (Or.inl h)
    · rcases total_of strLE (pyLower a.1) (pyLower b.1) with h2 | h2
      · exact Or.inl (Or.inr ⟨h, h2⟩)
      · exact Or.inr (Or.inr ⟨h.symm, h2⟩)
    · exact Or.inl (Or.inl h)

instance : IsTrans (String × Int) rowLE where
  trans a b c hab hbc := by
    rcases hab with h1 | ⟨e1, l1⟩
    · rcases hbc with h2 | ⟨e2, _⟩
      · exact Or.inl (h2.trans h1)
      · exact Or.inl (e2 ▸ h1)
    · rcases hbc with h2 | ⟨e2, l2⟩
      · exact Or.inl (e1 ▸ h2)
      · exact Or.inr ⟨e1.trans e2, strLtB_neg_trans _ _ _ l1 l2⟩

theorem dictGet?_dictSet {ν : Type} (d : List (String × ν)) (k : String) (v : ν) (k2 : String) :
    dictGet? (dictSet d k v) k2 = if k2 = k then some v else dictGet? d k2 := by
  induction d with
  | nil =>
    by_cases h : k = k2
    · subst h; simp [dictSet, dictGet?]
    · simp [dictSet, dictGet?, h, Ne.symm h]
  | cons e rest ih =>
    obtain ⟨k3, v3⟩ := e
    by_cases h3 : k3 = k
    · subst h3
      by_cases h : k3 = k2
      · subst h; simp [dictSet, dictGet?]
      · simp [dictSet, dictGet?, h, Ne.symm h]
    · by_cases h : k3 = k2
      · subst h
        simp [dictSet, dictGet?, h3, Ne.symm h3]
      · simp [dictSet, dictGet?, h3, h, ih]

theorem dictGet?_dictSet_self {ν : Type} (d : List (String × ν)) (k : String) (v : ν) :
    dictGet? (dictSet d k v) k = some v := by
  rw [dictGet?_dictSet]; simp

theorem dictGet?_dictSet_ne {ν : Type} (d : List (String × ν)) (k : String) (v : ν)
    (k2 : String) (h : k2 ≠ k) :
    dictGet? (dictSet d k v) k2 = dictGet? d k2 := by
  rw [dictGet?_dictSet, if_neg h]

theorem countFor_storeIngest (st : Store) (p0 s0 : String) (v : Val) (p s : String) :
    countFor (storeIngest st p0 s0 v) p s =
      if p0 = p ∧ s0 = s then v else countFor st p s := by
  by_cases hp : p0 = p
  · by_cases hs : s0 = s
    · rw [if_pos ⟨hp, hs⟩]
      subst hp; subst hs
      unfold countFor cellGet storeIngest
      rw [dictGet?_dictSet_self]
      simp only [Option.some_bind]
      rw [dictGet?_dictSet_self]
      rfl
    · rw [if_neg (fun h => hs h.2)]
      subst hp
      unfold countFor cellGet storeIngest
      rw [dictGet?_dictSet_self]
      simp only [Option.some_bind]
      rw [dictGet?_dictSet_ne _ _ _ _ (fun h => hs h.symm)]
      cases h : dictGet? st p0 with
      | none => simp [dictGet?]
      | some inner => simp
  · rw [if_neg (fun h => hp h.1)]
    unfold countFor cellGet storeIngest
    rw [dictGet?_dictSet_ne _ _ _ _ (fun h => hp h.symm)]

theorem lastFold_init (ops : List (String × String × Val)) (p s : String) (a : Option Val) :
    ops.foldl (fun acc op => if op.1 = p ∧ op.2.1 = s then some op.2.2 else acc) a =
      (ops.foldl (fun acc op => if op.1 = p ∧ op.2.1 = s then some op.2.2 else acc) none).elim
        a some := by
  induction ops generalizing a with
  | nil => rfl
  | cons op rest ih =>
    simp only [List.foldl_cons]
    by_cases h : op.1 = p ∧ op.2.1 = s
    · rw [if_pos h, if_pos h, ih (some op.2.2)]
      cases rest.foldl (fun acc op => if op.1 = p ∧ op.2.1 = s then some op.2.2 else acc) none with
      | none => rfl
      | some w => rfl
    · rw [if_neg h, if_neg h, ih a]

theorem countFor_buildStore (ops : List (String × String × Val)) (p s : String) :
    countFor (buildStore ops) p s = (lastIngested ops p s).getD (Val.vint 0) := by
  suffices h : ∀ st, countFor
      (ops.foldl (fun st op => storeIngest st op.1 op.2.1 op.2.2) st) p s =
      (lastIngested ops p s).getD (countFor st p s) by
    have h0 := h []
    unfold buildStore
    rw [h0]; rfl
  intro st
  induction ops generalizing st with
  | nil => rfl
  | cons op rest ih =>
    simp only [lastIngested, List.foldl_cons] at ih ⊢
    rw [ih (storeIngest st op.1 op.2.1 op.2.2), countFor_storeIngest,
      lastFold_init rest p s (if op.1 = p ∧ op.2.1 = s then some op.2.2 else none)]
    generalize rest.foldl
      (fun acc op => if op.1 = p ∧ op.2.1 = s then some op.2.2 else acc) none = res
    cases res with
    | none =>
      by_cases h : op.1 = p ∧ op.2.1 = s
      · rw [if_pos h, if_pos h]; rfl
      · rw [if_neg h, if_neg h]; rfl
    | some w => rfl

theorem zeroFill_preserves :
    ∀ (names : List String) (inner inner2 : List (String × Val)) (tot t : Int),
      zeroFillAndTotal inner names tot = .ok (inner2, t) →
      ∀ k v, dictGet? inner k = some v → dictGet? inner2 k = some v := by
  intro names
  induction names with
  | nil =>
    intro inner inner2 tot t h k v hk
    simp only [zeroFillAndTotal, Except.ok.injEq, Prod.mk.injEq] at h
    rw [← h.1]; exact hk
  | cons n ns ih =>
    intro inner inner2 tot t h k v hk
    simp only [zeroFillAndTotal] at h
    cases hg : dictGet? inner n with
    | some v0 =>
      simp only [hg] at h
      cases hpv : pyValInt v0 with
      | some k0 =>
        simp only [hpv] at h
        exact ih inner inner2 _ t h k v hk
      | none =>
        simp only [hpv] at h
        exact Except.noConfusion h
    | none =>
      simp only [hg] at h
      have hkn : k ≠ n := fun e => by rw [e, hg] at hk; cases hk
      exact ih _ inner2 _ t h k v (by rw [dictGet?_dictSet_ne _ _ _ _ hkn]; exact hk)

theorem dictGet?_getD_dictSet_zero (inner : List (String × Val)) (n : String)
    (h : dictGet? inner n = none) (m : String) :
    (dictGet? (dictSet inner n (Val.vint 0)) m).getD (Val.vint 0) =
      (dictGet? inner m).getD (Val.vint 0) := by
  rw [dictGet?_dictSet]
  by_cases hm : m = n
  · subst hm; rw [if_pos rfl, h]; rfl
  · rw [if_neg hm]

theorem zeroFill_get :
    ∀ (names : List String) (inner inner2 : List (String × Val)) (tot t : Int),
      zeroFillAndTotal inner names tot = .ok (inner2, t) →
      ∀ m, m ∈ names → dictGet? inner2 m = some ((dictGet? inner m).getD (.vint 0)) := by
  intro names
  induction names with
  | nil => intro inner inner2 tot t h m hm; cases hm
  | cons n ns ih =>
    intro inner inner2 tot t h m hm
    simp only [zeroFillAndTotal] at h
    cases hg : dictGet? inner n with
    | some v0 =>
      simp only [hg] at h
      cases hpv : pyValInt v0 with
      | some k0 =>
        simp only [hpv] at h
        rcases List.mem_cons.mp hm with rfl | hm2
        · rw [hg]
          exact zeroFill_preserves ns inner inner2 _ t h m v0 hg
        · exact ih inner inner2 _ t h m hm2
      | none =>
        simp only [hpv] at h
        exact Except.noConfusion h
    | none =>
      simp only [hg] at h
      rcases List.mem_cons.mp hm with rfl | hm2
      · rw [hg]
        exact zeroFill_preserves ns _ inner2 _ t h m (Val.vint 0) (dictGet?_dictSet_self _ _ _)
      · rw [← dictGet?_getD_dictSet_zero inner n hg m]
        exact ih _ inner2 _ t h m hm2

theorem zeroFill_new :
    ∀ (names : List String) (inner inner2 : List (String × Val)) (tot t : Int),
      zeroFillAndTotal inner names tot = .ok (inner2, t) →
      ∀ k v, dictGet? inner k = none → dictGet? inner2 k = some v →
        v = Val.vint 0 ∧ k ∈ names := by
  intro names
  induction names with
  | nil =>
    intro inner inner2 tot t h k v hk hk2
    simp only [zeroFillAndTotal, Except.ok.injEq, Prod.mk.injEq] at h
    rw [← h.1] at hk2
    rw [hk] at hk2
    cases hk2
  | cons n ns ih =>
    intro inner inner2 tot t h k v hk hk2
    simp only [zeroFillAndTotal] at h
    cases hg : dictGet? inner n with
    | some v0 =>
      simp only [hg] at h
      cases hpv : pyValInt v0 with
      | some k0 =>
        simp only [hpv] at h
        rcases ih inner inner2 _ t h k v hk hk2 with ⟨hv, hks⟩
        exact ⟨hv, List.mem_cons_of_mem n hks⟩
      | none =>
        simp only [hpv] at h
        exact Except.noConfusion h
    | none =>
      simp only [hg] at h
      by_cases hkn : k = n
      · subst hkn
        have := zeroFill_preserves ns _ inner2 _ t h k (Val.vint 0) (dictGet?_dictSet_self _ _ _)
        rw [this] at hk2
        exact ⟨(Option.some.injEq _ _ ▸ hk2).symm, List.mem_cons_self k ns⟩
      · have hk1 : dictGet? (dictSet inner n (Val.vint 0)) k = none := by
          rw [dictGet?_dictSet_ne _ _ _ _ hkn]; exact hk
        rcases ih _ inner2 _ t h k v hk1 hk2 with ⟨hv, hks⟩
        exact ⟨hv, List.mem_cons_of_mem n hks⟩

theorem innerTotal_dictSet_zero (inner : List (String × Val)) (n : String)
    (h : dictGet? inner n = none) (ns : List String) :
    innerTotal (dictSet inner n (Val.vint 0)) ns = innerTotal inner ns := by
  unfold innerTotal
  congr 1
  apply List.map_congr_left
  intro m _
  rw [dictGet?_getD_dictSet_zero inner n h m]

theorem zeroFill_total :
    ∀ (names : List String) (inner inner2 : List (String × Val)) (tot t : Int),
      zeroFillAndTotal inner names tot = .ok (inner2, t) →
      t = tot + innerTotal inner names := by
  intro names
  induction names with
  | nil =>
    intro inner inner2 tot t h
    simp only [zeroFillAndTotal, Except.ok.injEq, Prod.mk.injEq] at h
    rw [← h.2]
    simp [innerTotal]
  | cons n ns ih =>
    intro inner inner2 tot t h
    simp only [zeroFillAndTotal] at h
    cases hg : dictGet? inner n with
    | some v0 =>
      simp only [hg] at h
      cases hpv : pyValInt v0 with
      | some k0 =>
        simp only [hpv] at h
        have h2 := ih inner inner2 _ t h
        rw [h2]
        simp only [innerTotal, List.map_cons, List.sum_cons, hg, Option.getD_some, hpv]
        ring
      | none =>
        simp only [hpv] at h
        exact Except.noConfusion h
    | none =>
      simp only [hg] at h
      have h2 := ih _ inner2 _ t h
      rw [innerTotal_dictSet_zero inner n hg ns] at h2
      rw [h2]
      simp only [innerTotal, List.map_cons, List.sum_cons, hg, Option.getD_none, pyValInt,
        Option.getD_some]
      ring

theorem zeroFill_idem :
    ∀ (names : List String) (inner inner2 : List (String × Val)) (tot t : Int),
      zeroFillAndTotal inner names tot = .ok (inner2, t) →
      zeroFillAndTotal inner2 names tot = .ok (inner2, t) := by
  intro names
  induction names with
  | nil =>
    intro inner inner2 tot t h
    simp only [zeroFillAndTotal, Except.ok.injEq, Prod.mk.injEq] at h ⊢
    exact ⟨trivial, h.2⟩
  | cons n ns ih =>
    intro inner inner2 tot t h
    simp only [zeroFillAndTotal] at h ⊢
    cases hg : dictGet? inner n with
    | some v0 =>
      simp only [hg] at h
      cases hpv : pyValInt v0 with
      | some k0 =>
        simp only [hpv] at h
        rw [zeroFill_preserves ns inner inner2 _ t h n v0 hg]
        simp only [hpv]
        exact ih inner inner2 _ t h
      | none =>
        simp only [hpv] at h
        exact Except.noConfusion h
    | none =>
      simp only [hg] at h
      rw [zeroFill_preserves ns _ inner2 _ t h n (Val.vint 0) (dictGet?_dictSet_self _ _ _)]
      simp only [pyValInt]
      exact ih _ inner2 _ t h

theorem zeroFill_err :
    ∀ (names : List String) (inner : List (String × Val)) (tot : Int) (name c : String),
      dictGet? inner name = some (Val.vstr c) → pyInt c = none → name ∈ names →
      zeroFillAndTotal inner names tot = .error "ValueError" := by
  intro names
  induction names with
  | nil => intro inner tot name c _ _ hm; cases hm
  | cons n ns ih =>
    intro inner tot name c hg hc hm
    simp only [zeroFillAndTotal]
    by_cases hn : n = name
    · subst hn
      simp only [hg, pyValInt, hc]
    · cases hgn : dictGet? inner n with
      | some v =>
        cases hpv : pyValInt v with
        | some k =>
          simp only [hpv]
          rcases List.mem_cons.mp hm with rfl | hm2
          · exact absurd rfl hn
          · exact ih inner _ name c hg hc hm2
        | none => simp only [hpv]
      | none =>
        rcases List.mem_cons.mp hm with rfl | hm2
        · exact absurd rfl hn
        · refine ih _ _ name c ?_ hc hm2
          rw [dictGet?_dictSet_ne _ _ _ _ (fun e => hn e.symm)]
          exact hg

theorem computeTotals_keys :
    ∀ (st : Store) (names : List String) (st2 : Store) (totals : List (String × Int)),
      computeTotals st names = .ok (st2, totals) →
      st2.map Prod.fst = st.map Prod.fst ∧ totals.map Prod.fst = st.map Prod.fst := by
  intro st
  induction st with
  | nil =>
    intro names st2 totals h
    simp only [computeTotals, Except.ok.injEq, Prod.mk.injEq] at h
    rw [← h.1, ← h.2]
    exact ⟨rfl, rfl⟩
  | cons e rest ih =>
    obtain ⟨p, inner⟩ := e
    intro names st2 totals h
    simp only [computeTotals] at h
    cases hz : zeroFillAndTotal inner names 0 with
    | error e2 =>
      simp only [hz] at h
      exact Except.noConfusion h
    | ok r =>
      obtain ⟨inner2, t⟩ := r
      simp only [hz] at h
      cases hc : computeTotals rest names with
      | error e2 =>
        simp only [hc] at h
        exact Except.noConfusion h
      | ok r2 =>
        obtain ⟨rest2, totr⟩ := r2
        simp only [hc, Except.ok.injEq, Prod.mk.injEq] at h
        rcases ih names rest2 totr hc with ⟨ih1, ih2⟩
        rw [← h.1, ← h.2]
        simp only [List.map_cons, ih1, ih2]
        exact ⟨trivial, trivial⟩

theorem dictGet?_cons_self {ν : Type} (k : String) (v : ν) (rest : List (String × ν)) :
    dictGet? ((k, v) :: rest) k = some v := by
  simp [dictGet?]

theorem dictGet?_cons_ne {ν : Type} (k0 : String) (v : ν) (rest : List (String × ν))
    {p : String} (h : k0 ≠ p) :
    dictGet? ((k0, v) :: rest) p = dictGet? rest p := by
  simp [dictGet?, h]

theorem computeTotals_get :
    ∀ (st : Store) (names : List String) (st2 : Store) (totals : List (String × Int)),
      computeTotals st names = .ok (st2, totals) →
      ∀ p, (dictGet? st p = none → dictGet? st2 p = none) ∧
        (∀ inner, dictGet? st p = some inner →
          ∃ inner2 t, dictGet? st2 p = some inner2 ∧
            zeroFillAndTotal inner names 0 = .ok (inner2, t)) := by
  intro st
  induction st with
  | nil =>
    intro names st2 totals h p
    simp only [computeTotals, Except.ok.injEq, Prod.mk.injEq] at h
    rw [← h.1]
    exact ⟨fun _ => rfl, fun inner hi => Option.noConfusion hi⟩
  | cons e rest ih =>
    obtain ⟨p0, inner0⟩ := e
    intro names st2 totals h p
    simp only [computeTotals] at h
    cases hz : zeroFillAndTotal inner0 names 0 with
    | error e2 =>
      simp only [hz] at h
      exact Except.noConfusion h
    | ok r =>
      obtain ⟨inner02, t0⟩ := r
      simp only [hz] at h
      cases hc : computeTotals rest names with
      | error e2 =>
        simp only [hc] at h
        exact Except.noConfusion h
      | ok r2 =>
        obtain ⟨rest2, totr⟩ := r2
        simp only [hc, Except.ok.injEq, Prod.mk.injEq] at h
        rw [← h.1]
        constructor
        · intro hn
          by_cases hp : p0 = p
          · subst hp
            rw [dictGet?_cons_self] at hn
            exact Option.noConfusion hn
          · rw [dictGet?_cons_ne _ _ _ hp] at hn
            rw [dictGet?_cons_ne _ _ _ hp]
            exact ((ih names rest2 totr hc) p).1 hn
        · intro inner hi
          by_cases hp : p0 = p
          · subst hp
            rw [dictGet?_cons_self] at hi
            have hie := Option.some.inj hi
            refine ⟨inner02, t0, ?_, ?_⟩
            · rw [dictGet?_cons_self]
            · rw [← hie]
              exact hz
          · rw [dictGet?_cons_ne _ _ _ hp] at hi
            rw [dictGet?_cons_ne _ _ _ hp]
            exact ((ih names rest2 totr hc) p).2 inner hi

theorem computeTotals_idem :
    ∀ (st : Store) (names : List String) (st2 : Store) (totals : List (String × Int)),
      computeTotals st names = .ok (st2, totals) →
      computeTotals st2 names = .ok (st2, totals) := by
  intro st
  induction st with
  | nil =>
    intro names st2 totals h
    simp only [computeTotals, Except.ok.injEq, Prod.mk.injEq] at h
    rw [← h.1, ← h.2]
    rfl
  | cons e rest ih =>
    obtain ⟨p0, inner0⟩ := e
    intro names st2 totals h
    simp only [computeTotals] at h
    cases hz : zeroFillAndTotal inner0 names 0 with
    | error e2 =>
      simp only [hz] at h
      exact Except.noConfusion h
    | ok r =>
      obtain ⟨inner02, t0⟩ := r
      simp only [hz] at h
      cases hc : computeTotals rest names with
      | error e2 =>
        simp only [hc] at h
        exact Except.noConfusion h
      | ok r2 =>
        obtain ⟨rest2, totr⟩ := r2
        simp only [hc, Except.ok.injEq, Prod.mk.injEq] at h
        rw [← h.1, ← h.2]
        simp only [computeTotals, zeroFill_idem names inner0 inner02 0 t0 hz,
          ih names rest2 totr hc]

theorem computeTotals_totals :
    ∀ (st : Store) (names : List String) (st2 : Store) (totals : List (String × Int)),
      computeTotals st names = .ok (st2, totals) →
      totals = st.map (fun e => (e.1, innerTotal e.2 names)) := by
  intro st
  induction st with
  | nil =>
    intro names st2 totals h
    simp only [computeTotals, Except.ok.injEq, Prod.mk.injEq] at h
    rw [← h.2]
    rfl
  | cons e rest ih =>
    obtain ⟨p0, inner0⟩ := e
    intro names st2 totals h
    simp only [computeTotals] at h
    cases hz : zeroFillAndTotal inner0 names 0 with
    | error e2 =>
      simp only [hz] at h
      exact Except.noConfusion h
    | ok r =>
      obtain ⟨inner02, t0⟩ := r
      simp only [hz] at h
      cases hc : computeTotals rest names with
      | error e2 =>
        simp only [hc] at h
        exact Except.noConfusion h
      | ok r2 =>
        obtain ⟨rest2, totr⟩ := r2
        simp only [hc, Except.ok.injEq, Prod.mk.injEq] at h
        rw [← h.2]
        have ht := zeroFill_total names inner0 inner02 0 t0 hz
        rw [zero_add] at ht
        simp only [List.map_cons, ht, ih names rest2 totr hc]

theorem filter_orderedInsert {α : Type} (r : α → α → Prop) [DecidableRel r] (q : α → Bool)
    (a : α) :
    ∀ m : List α, (∀ x ∈ m, q a = true → q x = true → r a x) →
      (m.orderedInsert r a).filter q = if q a then a :: m.filter q else m.filter q := by
  intro m
  induction m with
  | nil =>
    intro _
    cases hqa : q a <;> simp [List.orderedInsert, List.filter, hqa]
  | cons b m2 ih =>
    intro hq
    have hq2 : ∀ x ∈ m2, q a = true → q x = true → r a x :=
      fun x hx => hq x (List.mem_cons_of_mem b hx)
    by_cases hr : r a b
    · cases hqa : q a <;>
        simp [List.orderedInsert, hr, List.filter_cons, hqa]
    · cases hqa : q a
      · cases hqb : q b <;>
          simp [List.orderedInsert, hr, List.filter_cons, hqa, hqb, ih hq2]
      · cases hqb : q b
        · simp [List.orderedInsert, hr, List.filter_cons, hqa, hqb, ih hq2]
        · exact absurd (hq b (List.mem_cons_self b m2) hqa hqb) hr

theorem filter_insertionSort {α : Type} (r : α → α → Prop) [DecidableRel r] (q : α → Bool)
    (hkey : ∀ a x : α, q a = true → q x = true → r a x) :
    ∀ l : List α, (List.insertionSort r l).filter q = l.filter q := by
  intro l
  induction l with
  | nil => rfl
  | cons a l2 ih =>
    rw [List.insertionSort]
    rw [filter_orderedInsert r q a _ (fun x _ => hkey a x)]
    cases hqa : q a <;> simp [List.filter_cons, hqa, ih]

theorem pySortStrings_idem (l : List String) :
    pySortStrings (pySortStrings l) = pySortStrings l := by
  unfold pySortStrings
  exact List.Sorted.insertionSort_eq (List.sorted_insertionSort _ l)

theorem splitChar_not_mem (sep : Char) :
    ∀ l : List Char, ¬ sep ∈ l → splitChar sep l = [l] := by
  intro l
  induction l with
  | nil => intro _; rfl
  | cons c rest ih =>
    intro h
    have hc : ¬ c = sep := fun e => h (e ▸ List.mem_cons_self c rest)
    have h2 : ¬ sep ∈ rest := fun hm => h (List.mem_cons_of_mem c hm)
    simp [splitChar, ih h2, hc]

theorem splitChar_append (sep : Char) :
    ∀ (l1 l2 : List Char), ¬ sep ∈ l1 →
      splitChar sep (l1 ++ sep :: l2) = l1 :: splitChar sep l2 := by
  intro l1
  induction l1 with
  | nil =>
    intro l2 _
    simp [splitChar]
  | cons c rest ih =>
    intro l2 h
    have hc : ¬ c = sep := fun e => h (e ▸ List.mem_cons_self c rest)
    have h2 : ¬ sep ∈ rest := fun hm => h (List.mem_cons_of_mem c hm)
    simp [List.cons_append, splitChar, ih l2 h2, hc]

theorem splitChar_ne_nil (sep : Char) (l : List Char) : splitChar sep l ≠ [] := by
  cases l with
  | nil => simp [splitChar]
  | cons c rest =>
    simp only [splitChar]
    by_cases h : c = sep
    · simp [h]
    · cases hr : splitChar sep rest <;> simp [h, hr]

theorem ingestLine_split_ok (st : Store) (name line : String) (f0 f1 : List Char)
    (rest : List (List Char)) (h : splitChar '\t' line.toList = f0 :: f1 :: rest) :
    ingestLine st name line = .ok (storeIngest st (String.mk f0) name (.vstr (String.mk f1))) := by
  unfold ingestLine
  rw [h]

theorem ingestLine_split_err (st : Store) (name line : String) (f0 : List Char)
    (h : splitChar '\t' line.toList = [f0]) :
    ingestLine st name line = .error "IndexError" := by
  unfold ingestLine
  rw [h]

theorem ingestLine_two_fields (st : Store) (name p c : String)
    (hp : ¬ '\t' ∈ p.toList) (hc : ¬ '\t' ∈ c.toList) :
    ingestLine st name (p ++ "\t" ++ c) = .ok (storeIngest st p name (.vstr c)) := by
  have h1 : (p ++ "\t" ++ c).toList = p.toList ++ '\t' :: c.toList := by
    show (p ++ "\t" ++ c).data = p.data ++ '\t' :: c.data
    rw [String.data_append, String.data_append]
    simp
  have hsplit : splitChar '\t' (p ++ "\t" ++ c).toList = [p.toList, c.toList] := by
    rw [h1, splitChar_append '\t' p.toList c.toList hp, splitChar_not_mem '\t' c.toList hc]
  unfold ingestLine
  rw [hsplit]
  rfl

theorem ingestLine_no_tab (st : Store) (name line : String)
    (h : ¬ '\t' ∈ line.toList) :
    ingestLine st name line = .error "IndexError" := by
  unfold ingestLine
  rw [splitChar_not_mem '\t' line.toList h]

theorem replaceAllAux_nil (pat repl : List Char) (fuel : Nat) :
    replaceAllAux pat repl fuel [] = [] := by
  cases fuel <;> rfl

theorem replaceAllAux_unique (pat repl : List Char) :
    ∀ (stem : List Char) (fuel : Nat), (stem ++ pat).length ≤ fuel →
      (∀ i, i < stem.length → pat.isPrefixOf ((stem ++ pat).drop i) = false) →
      pat ≠ [] →
      replaceAllAux pat repl fuel (stem ++ pat) = stem ++ repl := by
  intro stem
  induction stem with
  | nil =>
    intro fuel hfuel _ hne
    cases hp : pat with
    | nil => exact absurd hp hne
    | cons c rest =>
      subst hp
      rw [List.nil_append] at hfuel ⊢
      cases fuel with
      | zero => simp at hfuel
      | succ f =>
        have hcond : ((c :: rest).isPrefixOf (c :: rest) && !(c :: rest).isEmpty) = true := by
          simp [List.isPrefixOf_iff_prefix]
        simp only [replaceAllAux, hcond, if_true, List.drop_length, replaceAllAux_nil]
        simp
  | cons c stem2 ih =>
    intro fuel hfuel h hne
    have h0 := h 0 (by simp)
    rw [List.drop_zero, List.cons_append] at h0
    rw [List.cons_append] at hfuel ⊢
    cases fuel with
    | zero => simp at hfuel
    | succ f =>
      simp only [replaceAllAux, h0, Bool.false_and, Bool.false_eq_true, if_false]
      have h2 : ∀ i, i < stem2.length → pat.isPrefixOf ((stem2 ++ pat).drop i) = false := by
        intro i hi
        have h3 := h (i + 1) (by simp only [List.length_cons]; omega)
        rw [List.cons_append, List.drop_succ_cons] at h3
        exact h3
      have hfuel2 : (stem2 ++ pat).length ≤ f := by
        simp only [List.length_cons] at hfuel
        omega
      rw [ih f hfuel2 h2 hne, List.cons_append]

theorem replaceAll_unique (pat repl : List Char) (stem : List Char)
    (h : ∀ i, i < stem.length → pat.isPrefixOf ((stem ++ pat).drop i) = false)
    (hne : pat ≠ []) :
    replaceAll pat repl (stem ++ pat) = stem ++ repl :=
  replaceAllAux_unique pat repl stem (stem ++ pat).length (le_refl _) h hne

theorem dictGet?_eq_none_iff {ν : Type} :
    ∀ (d : List (String × ν)) (k : String),
      dictGet? d k = none ↔ ¬ k ∈ d.map Prod.fst := by
  intro d
  induction d with
  | nil => intro k; simp [dictGet?]
  | cons e rest ih =>
    obtain ⟨k2, v⟩ := e
    intro k
    by_cases h : k2 = k
    · subst h; simp [dictGet?]
    · simp [dictGet?, h, ih, Ne.symm h]

theorem dictSet_keys_of_mem {ν : Type} :
    ∀ (d : List (String × ν)) (k : String) (v : ν),
      k ∈ d.map Prod.fst → (dictSet d k v).map Prod.fst = d.map Prod.fst := by
  intro d
  induction d with
  | nil => intro k v h; cases h
  | cons e rest ih =>
    obtain ⟨k2, v2⟩ := e
    intro k v h
    by_cases he : k2 = k
    · subst he; simp [dictSet]
    · simp only [dictSet, if_neg he, List.map_cons]
      have h2 : k ∈ rest.map Prod.fst := by
        rcases List.mem_cons.mp h with h3 | h3
        · exact absurd h3.symm he
        · exact h3
      rw [ih k v h2]

theorem addRecord_keys {ρ : Type} (seqs : List (String × List ρ)) (d : String) (rec : ρ) :
    (addRecord seqs d rec).map Prod.fst =
      if d ∈ seqs.map Prod.fst then seqs.map Prod.fst else seqs.map Prod.fst ++ [d] := by
  unfold addRecord
  cases hg : dictGet? seqs d with
  | some l =>
    have hmem : d ∈ seqs.map Prod.fst := by
      by_contra hc
      rw [(dictGet?_eq_none_iff seqs d).mpr hc] at hg
      exact Option.noConfusion hg
    rw [if_pos hmem, dictSet_keys_of_mem seqs d _ hmem]
  | none =>
    have hmem : ¬ d ∈ seqs.map Prod.fst := (dictGet?_eq_none_iff seqs d).mp hg
    rw [if_neg hmem]
    simp

theorem mem_addRecord_keys {ρ : Type} (seqs : List (String × List ρ)) (d0 : String) (rec : ρ)
    (d : String) :
    d ∈ (addRecord seqs d0 rec).map Prod.fst ↔ d ∈ seqs.map Prod.fst ∨ d = d0 := by
  rw [addRecord_keys]
  by_cases hm : d0 ∈ seqs.map Prod.fst
  · rw [if_pos hm]
    constructor
    · exact Or.inl
    · rintro (h | h)
      · exact h
      · exact h ▸ hm
  · rw [if_neg hm]
    simp

theorem nodup_addRecord_keys {ρ : Type} (seqs : List (String × List ρ)) (d0 : String) (rec : ρ)
    (hnd : (seqs.map Prod.fst).Nodup) :
    ((addRecord seqs d0 rec).map Prod.fst).Nodup := by
  rw [addRecord_keys]
  by_cases hm : d0 ∈ seqs.map Prod.fst
  · rw [if_pos hm]; exact hnd
  · rw [if_neg hm]
    simp [List.nodup_append, hnd, hm]

theorem buildSeqsFrom_keys {ρ : Type} :
    ∀ (recs : List (String × ρ)) (seqs out : List (String × List ρ)),
      buildSeqsFrom seqs recs = .ok out →
      (seqs.map Prod.fst).Nodup →
      (out.map Prod.fst).Nodup ∧
      ∀ d, d ∈ out.map Prod.fst ↔
        (d ∈ seqs.map Prod.fst ∨ d ∈ recs.filterMap (fun e => extractDomain e.1)) := by
  intro recs
  induction recs with
  | nil =>
    intro seqs out h hnd
    simp only [buildSeqsFrom, Except.ok.injEq] at h
    subst h
    exact ⟨hnd, fun d => by simp⟩
  | cons e rest ih =>
    obtain ⟨desc, rec⟩ := e
    intro seqs out h hnd
    simp only [buildSeqsFrom] at h
    cases hx : extractDomain desc with
    | none =>
      simp only [hx] at h
      exact Except.noConfusion h
    | some d0 =>
      simp only [hx] at h
      rcases ih (addRecord seqs d0 rec) out h (nodup_addRecord_keys seqs d0 rec hnd) with
        ⟨hnd3, hiff⟩
      refine ⟨hnd3, fun d => ?_⟩
      rw [hiff d, mem_addRecord_keys]
      simp only [List.filterMap_cons, hx, List.mem_cons]
      constructor
      · rintro ((h1 | h1) | h1)
        · exact Or.inl h1
        · exact Or.inr (Or.inl h1)
        · exact Or.inr (Or.inr h1)
      · rintro (h1 | h1 | h1)
        · exact Or.inl (Or.inl h1)
        · exact Or.inl (Or.inr h1)
        · exact Or.inr h1

theorem fExt?_toList_ne_nil (s ext0 : String) (h : fExt? s = some ext0) :
    ext0.toList ≠ [] := by
  unfold fExt? at h
  by_cases hw : (s.toList.reverse.takeWhile isWordChar).isEmpty
  · rw [if_pos hw] at h
    exact Option.noConfusion h
  · rw [if_neg hw] at h
    cases hd : s.toList.reverse.drop (s.toList.reverse.takeWhile isWordChar).length with
    | nil =>
      rw [hd] at h
      exact Option.noConfusion h
    | cons c rest =>
      rw [hd] at h
      by_cases hc : c = '.'
      · simp only [if_pos hc] at h
        have he := Option.some.inj h
        rw [← he]
        intro hcontra
        exact List.noConfusion hcontra
      · simp only [if_neg hc] at h
        exact Option.noConfusion h

theorem writeTargets_eq {ρ : Type} (silvaFile ext0 : String) (stem : List Char)
    (hext : fExt? silvaFile = some ext0)
    (hsplit : silvaFile.toList = stem ++ ext0.toList)
    (huniq : ∀ i, i < stem.length →
      ext0.toList.isPrefixOf ((stem ++ ext0.toList).drop i) = false) :
    ∀ seqs : List (String × List ρ),
      writeTargets silvaFile seqs =
        .ok (seqs.map (fun it =>
          (String.mk (stem ++ ('_' :: it.1.toList) ++ ext0.toList), it.2))) := by
  intro seqs
  induction seqs with
  | nil => rfl
  | cons e rest ih =>
    obtain ⟨d, recs⟩ := e
    have hrepl : replaceAll ext0.toList (('_' :: d.toList) ++ ext0.toList) silvaFile.toList =
        stem ++ (('_' :: d.toList) ++ ext0.toList) := by
      rw [hsplit]
      exact replaceAll_unique ext0.toList _ stem huniq (fExt?_toList_ne_nil silvaFile ext0 hext)
    simp only [writeTargets, oFile, hext, Option.map_some', ih, hrepl]
    simp [List.append_assoc]

theorem printTallies_idem (fileNames : List String) (st : Store) (lines : List String)
    (st2 : Store) (names2 : List String)
    (h : printTallies fileNames st = .ok (lines, st2, names2)) :
    printTallies names2 st2 = .ok (lines, st2, names2) := by
  unfold printTallies at h ⊢
  cases hc : computeTotals st (pySortStrings fileNames) with
  | error e =>
    simp only [hc] at h
    exact Except.noConfusion h
  | ok r =>
    obtain ⟨st2', totals⟩ := r
    simp only [hc] at h
    cases he : emitRows st2' (pySortStrings fileNames) (sortRows totals) with
    | error e =>
      simp only [he] at h
      exact Except.noConfusion h
    | ok lines' =>
      simp only [he, Except.ok.injEq, Prod.mk.injEq] at h
      obtain ⟨h1, h2, h3⟩ := h
      subst h1
      subst h2
      subst h3
      rw [pySortStrings_idem fileNames,
        computeTotals_idem st (pySortStrings fileNames) st2' totals hc]
      simp only [he]

/-- C1: in the materialized output the data rows are sorted with primary
key the per-row total descending and tie-break the lowercased primer-pair
identity ascending, the per-pair totals list enumerates the store's pairs
in their original iteration order, and rows whose total and lowercased
identity both agree keep that original order (the sort is stable). -/
theorem primer_rows_sorted_stable (st : Store) (names : List String) (st2 : Store)
    (totals : List (String × Int)) (h : computeTotals st names = .ok (st2, totals)) :
    totals.map Prod.fst = st.map Prod.fst ∧
    List.Sorted rowLE (sortRows totals) ∧
    ∀ t s, (sortRows totals).filter (fun x => x.2 == t && pyLower x.1 == s) =
      totals.filter (fun x => x.2 == t && pyLower x.1 == s) := by
  refine ⟨(computeTotals_keys st names st2 totals h).2, ?_, ?_⟩
  · unfold sortRows
    exact List.sorted_insertionSort rowLE totals
  · intro t s
    unfold sortRows
    refine filter_insertionSort rowLE _ ?_ totals
    intro a x ha hx
    simp only [Bool.and_eq_true, beq_iff_eq] at ha hx
    refine Or.inr ⟨ha.1.trans hx.1.symm, ?_⟩
    rw [ha.2, hx.2]
    exact strLE_refl s

theorem primer_rows_sorted_stable_witness :
    ([("16S_V4", (50 : Int)), ("16S_v3", 50), ("ITS", 80)].map Prod.fst =
      ([("16S_V4", [("S", Val.vstr "50")]), ("16S_v3", [("S", Val.vstr "50")]),
        ("ITS", [("S", Val.vstr "80")])] : Store).map Prod.fst) ∧
    List.Sorted rowLE (sortRows [("16S_V4", 50), ("16S_v3", 50), ("ITS", 80)]) ∧
    (∀ t s, (sortRows [("16S_V4", (50 : Int)), ("16S_v3", 50), ("ITS", 80)]).filter
        (fun x => x.2 == t && pyLower x.1 == s) =
      [("16S_V4", (50 : Int)), ("16S_v3", 50), ("ITS", 80)].filter
        (fun x => x.2 == t && pyLower x.1 == s)) :=
  primer_rows_sorted_stable
    [("16S_V4", [("S", Val.vstr "50")]), ("16S_v3", [("S", Val.vstr "50")]),
      ("ITS", [("S", Val.vstr "80")])]
    ["S"]
    [("16S_V4", [("S", Val.vstr "50")]), ("16S_v3", [("S", Val.vstr "50")]),
      ("ITS", [("S", Val.vstr "80")])]
    [("16S_V4", 50), ("16S_v3", 50), ("ITS", 80)] (by rfl)

/-- C2: the count the materialization lookup resolves for an ingested
(pair, sample) combination is exactly the (last) ingested value, a
never-ingested combination resolves to zero without error, and the
zero-fill pass records exactly that resolved value for each sample. -/
theorem count_lookup_exact_or_zero (ops : List (String × String × Val)) (p s : String) :
    (∀ v, lastIngested ops p s = some v → countFor (buildStore ops) p s = v) ∧
    (lastIngested ops p s = none → countFor (buildStore ops) p s = Val.vint 0) ∧
    (∀ names tot inner2 t,
      zeroFillAndTotal ((dictGet? (buildStore ops) p).getD []) names tot = .ok (inner2, t) →
      s ∈ names →
      dictGet? inner2 s = some (countFor (buildStore ops) p s)) := by
  refine ⟨?_, ?_, ?_⟩
  · intro v hv
    rw [countFor_buildStore, hv]
    rfl
  · intro hv
    rw [countFor_buildStore, hv]
    rfl
  · intro names tot inner2 t hz hmem
    rw [zeroFill_get names _ inner2 tot t hz s hmem]
    congr 1
    unfold countFor cellGet
    cases hg : dictGet? (buildStore ops) p with
    | none => simp [dictGet?]
    | some inner => simp

theorem count_lookup_exact_or_zero_witness :
    countFor (buildStore [("A", "S1", Val.vstr "10")]) "A" "S1" = Val.vstr "10" ∧
    countFor (buildStore [("A", "S1", Val.vstr "10")]) "A" "S2" = Val.vint 0 ∧
    dictGet? [("S1", Val.vstr "10"), ("S2", Val.vint 0)] "S2" =
      some (countFor (buildStore [("A", "S1", Val.vstr "10")]) "A" "S2") :=
  ⟨(count_lookup_exact_or_zero [("A", "S1", Val.vstr "10")] "A" "S1").1 _ (by rfl),
   (count_lookup_exact_or_zero [("A", "S1", Val.vstr "10")] "A" "S2").2.1 (by rfl),
   (count_lookup_exact_or_zero [("A", "S1", Val.vstr "10")] "A" "S2").2.2 ["S1", "S2"] 0
     [("S1", Val.vstr "10"), ("S2", Val.vint 0)] 10 (by rfl) (by decide)⟩

/-- C3 counterexample: materialization is not read-only on the store; on
a store with one pair seen only in sample S1 and the sample set
containing S2, the zero-fill pass inserts an entry, so the two-level
mapping afterwards differs from the one before. -/
theorem materialize_mutates_store_cx :
    computeTotals [("A", [("S1", Val.vstr "10")])] ["S1", "S2"] =
      .ok ([("A", [("S1", Val.vstr "10"), ("S2", Val.vint 0)])], [("A", 10)]) ∧
    ([("A", [("S1", Val.vstr "10"), ("S2", Val.vint 0)])] : Store) ≠
      [("A", [("S1", Val.vstr "10")])] :=
  ⟨rfl, by decide⟩

/-- C3 amended: materialization mutates the store only by inserting the
integer zero at (pair, sample-in-set) combinations that were absent; the
pair list, every pre-existing entry, and the zero-default view of the
store are unchanged. -/
theorem materialize_only_zero_fills (st : Store) (names : List String) (st2 : Store)
    (totals : List (String × Int)) (h : computeTotals st names = .ok (st2, totals)) :
    st2.map Prod.fst = st.map Prod.fst ∧
    (∀ p s v, cellGet st p s = some v → cellGet st2 p s = some v) ∧
    (∀ p s v, cellGet st p s = none → cellGet st2 p s = some v →
      v = Val.vint 0 ∧ s ∈ names) ∧
    (∀ p s, countFor st2 p s = countFor st p s) := by
  have hkeys := (computeTotals_keys st names st2 totals h).1
  have hget := computeTotals_get st names st2 totals h
  have hpres : ∀ p s v, cellGet st p s = some v → cellGet st2 p s = some v := by
    intro p s v hc
    unfold cellGet at hc ⊢
    cases hg : dictGet? st p with
    | none =>
      rw [hg] at hc
      exact Option.noConfusion hc
    | some inner =>
      rw [hg] at hc
      simp only [Option.some_bind] at hc
      rcases (hget p).2 inner hg with ⟨inner2, t, hg2, hz⟩
      rw [hg2]
      simp only [Option.some_bind]
      exact zeroFill_preserves names inner inner2 0 t hz s v hc
  have hnew : ∀ p s v, cellGet st p s = none → cellGet st2 p s = some v →
      v = Val.vint 0 ∧ s ∈ names := by
    intro p s v hc0 hc2
    unfold cellGet at hc0 hc2
    cases hg : dictGet? st p with
    | none =>
      rw [(hget p).1 hg] at hc2
      exact Option.noConfusion hc2
    | some inner =>
      rw [hg] at hc0
      simp only [Option.some_bind] at hc0
      rcases (hget p).2 inner hg with ⟨inner2, t, hg2, hz⟩
      rw [hg2] at hc2
      simp only [Option.some_bind] at hc2
      exact zeroFill_new names inner inner2 0 t hz s v hc0 hc2
  refine ⟨hkeys, hpres, hnew, ?_⟩
  intro p s
  unfold countFor
  cases hcell : cellGet st p s with
  | some v => rw [hpres p s v hcell]
  | none =>
    cases hcell2 : cellGet st2 p s with
    | none => rfl
    | some v =>
      rw [(hnew p s v hcell hcell2).1]
      rfl

theorem materialize_only_zero_fills_witness :
    (([("A", [("S1", Val.vstr "10"), ("S2", Val.vint 0)])] : Store).map Prod.fst =
      ([("A", [("S1", Val.vstr "10")])] : Store).map Prod.fst) ∧
    (∀ p s v, cellGet [("A", [("S1", Val.vstr "10")])] p s = some v →
      cellGet [("A", [("S1", Val.vstr "10"), ("S2", Val.vint 0)])] p s = some v) ∧
    (∀ p s v, cellGet [("A", [("S1", Val.vstr "10")])] p s = none →
      cellGet [("A", [("S1", Val.vstr "10"), ("S2", Val.vint 0)])] p s = some v →
      v = Val.vint 0 ∧ s ∈ ["S1", "S2"]) ∧
    (∀ p s, countFor [("A", [("S1", Val.vstr "10"), ("S2", Val.vint 0)])] p s =
      countFor [("A", [("S1", Val.vstr "10")])] p s) :=
  materialize_only_zero_fills [("A", [("S1", Val.vstr "10")])] ["S1", "S2"]
    [("A", [("S1", Val.vstr "10"), ("S2", Val.vint 0)])] [("A", 10)] (by rfl)

/-- C4 counterexample: a line whose second tab field is not an integer is
ingested without any error, and the malformed text is stored in the tally
store for later stages. -/
theorem malformed_count_ingests_ok_cx :
    ingestLine [] "S1" "X\tfoo" = .ok [("X", [("S1", Val.vstr "foo")])] ∧
    pyInt "foo" = none :=
  ⟨rfl, rfl⟩

/-- C4 amended: a non-integer count is not an ingestion error: ingestion
stores the raw second field unconditionally, and the run aborts later,
during materialization, when the total computation parses the stored text
with `int()` (ValueError). -/
theorem malformed_count_fails_at_totals (st : Store) (name p c : String)
    (hp : ¬ '\t' ∈ p.toList) (hc : ¬ '\t' ∈ c.toList) (hparse : pyInt c = none)
    (inner : List (String × Val)) (hinner : dictGet? inner name = some (Val.vstr c))
    (names : List String) (hmem : name ∈ names) (tot : Int) :
    ingestLine st name (p ++ "\t" ++ c) = .ok (storeIngest st p name (.vstr c)) ∧
    zeroFillAndTotal inner names tot = .error "ValueError" :=
  ⟨ingestLine_two_fields st name p c hp hc,
   zeroFill_err names inner tot name c hinner hparse hmem⟩

theorem malformed_count_fails_at_totals_witness :
    ingestLine [] "S1" ("X" ++ "\t" ++ "foo") = .ok (storeIngest [] "X" "S1" (.vstr "foo")) ∧
    zeroFillAndTotal [("S1", Val.vstr "foo")] ["S1"] 0 = .error "ValueError" :=
  malformed_count_fails_at_totals [] "S1" "X" "foo" (by decide) (by decide) (by rfl)
    [("S1", Val.vstr "foo")] (by rfl) ["S1"] (by decide) 0

/-- C5 counterexample: a line with three tab-separated fields is not a
parse error; it is silently partially consumed, storing the second field
and dropping the third. -/
theorem three_field_line_ingests_ok_cx :
    ingestLine [] "S" "a\tb\tc" = .ok [("a", [("S", Val.vstr "b")])] :=
  rfl

/-- C5 amended: the tab-split of a line is never empty; a line with
exactly one field aborts ingestion (IndexError at `items[1]`), and any
line with two or more fields is accepted, storing the first field as the
pair and the raw second field as the count, ignoring the rest. -/
theorem line_field_count_behavior (st : Store) (name line : String) :
    splitChar '\t' line.toList ≠ [] ∧
    (∀ f0, splitChar '\t' line.toList = [f0] →
      ingestLine st name line = .error "IndexError") ∧
    (∀ f0 f1 rest, splitChar '\t' line.toList = f0 :: f1 :: rest →
      ingestLine st name line =
        .ok (storeIngest st (String.mk f0) name (.vstr (String.mk f1)))) :=
  ⟨splitChar_ne_nil '\t' line.toList,
   fun f0 h => ingestLine_split_err st name line f0 h,
   fun f0 f1 rest h => ingestLine_split_ok st name line f0 f1 rest h⟩

theorem line_field_count_behavior_witness :
    ingestLine [] "S" "a" = .error "IndexError" ∧
    ingestLine [] "S" "a\tb\tc" = .ok (storeIngest [] "a" "S" (.vstr "b")) :=
  ⟨(line_field_count_behavior [] "S" "a").2.1 ['a'] (by rfl),
   (line_field_count_behavior [] "S" "a\tb\tc").2.2 ['a'] ['b'] [['c']] (by rfl)⟩

/-- C6 counterexample: the sample name is computed with `str.replace`,
which removes every occurrence of `.<extension>`, not only the trailing
suffix: for extension `fq`, the file name `a.fq_R1.fq` yields `a_R1`
instead of the suffix-stripped `a.fq_R1`. -/
theorem sample_name_strips_all_occurrences_cx :
    sampleName "a.fq_R1.fq" "fq" = "a_R1" ∧
    specSampleName "a.fq_R1.fq" "fq" = "a.fq_R1" ∧
    sampleName "a.fq_R1.fq" "fq" ≠ specSampleName "a.fq_R1.fq" "fq" :=
  ⟨rfl, rfl, by decide⟩

/-- C6 amended: when the `.<extension>` substring occurs in the file name
only as its trailing suffix, the sample name is the file name with that
suffix stripped (in general `replace` removes every occurrence). -/
theorem sample_name_of_unique_extension (fileName ext : String) (stem : List Char)
    (h1 : fileName.toList = stem ++ ('.' :: ext.toList))
    (h2 : ∀ i, i < stem.length →
      ('.' :: ext.toList).isPrefixOf ((stem ++ ('.' :: ext.toList)).drop i) = false) :
    sampleName fileName ext = String.mk stem := by
  unfold sampleName
  rw [h1, replaceAll_unique _ _ stem h2 (by simp), List.append_nil]

theorem sample_name_of_unique_extension_witness :
    sampleName "x_R1.fq" "fq" = String.mk ['x', '_', 'R', '1'] :=
  sample_name_of_unique_extension "x_R1.fq" "fq" ['x', '_', 'R', '1'] (by rfl) (by decide)

/-- C7 counterexample: with no discovered files the run succeeds with no
data rows, but the header line is `pair` followed by a trailing tab
(`"pair\t" + "\t".join([])`), not the bare `pair` the claim states. -/
theorem empty_run_header_trailing_tab_cx :
    printTallies [] [] = .ok (["pair\t"], [], []) ∧ ("pair\t" : String) ≠ "pair" :=
  ⟨rfl, by decide⟩

/-- C7 amended: an empty discovered-file set (so an empty store) is not
an error: the report is exactly one header line consisting of `pair`
followed by a single trailing tab character, with no sample columns and
no data rows. -/
theorem empty_run_output :
    printTallies [] [] = .ok ([headerLine []], [], []) ∧ headerLine [] = "pair\t" :=
  ⟨rfl, rfl⟩

/-- C8: materialization is idempotent: a second `print_tallies` pass over
the store and name list the first pass left behind produces exactly the
same output lines (and leaves the store and name list unchanged again). -/
theorem materialize_idempotent (fileNames : List String) (st : Store) (lines : List String)
    (st2 : Store) (names2 : List String)
    (h : printTallies fileNames st = .ok (lines, st2, names2)) :
    printTallies names2 st2 = .ok (lines, st2, names2) :=
  printTallies_idem fileNames st lines st2 names2 h

theorem materialize_idempotent_witness :
    printTallies ["S1", "S2"] [("A", [("S1", Val.vstr "10"), ("S2", Val.vint 0)])] =
      .ok (["pair\tS1\tS2", "A\t10\t0"],
        [("A", [("S1", Val.vstr "10"), ("S2", Val.vint 0)])], ["S1", "S2"]) :=
  materialize_idempotent ["S2", "S1"] [("A", [("S1", Val.vstr "10")])]
    ["pair\tS1\tS2", "A\t10\t0"]
    [("A", [("S1", Val.vstr "10"), ("S2", Val.vint 0)])] ["S1", "S2"] (by rfl)

/-- C9 counterexample: the output path is computed with `str.replace`,
which substitutes every occurrence of the final-extension substring, not
only the final one: for `a.fa.fa` and domain `Bacteria` the code produces
`a_Bacteria.fa_Bacteria.fa` instead of `a.fa_Bacteria.fa`. -/
theorem domain_path_replaces_all_cx :
    oFile "a.fa.fa" "Bacteria" = some "a_Bacteria.fa_Bacteria.fa" ∧
    specOFile "a.fa.fa" "Bacteria" = some "a.fa_Bacteria.fa" ∧
    oFile "a.fa.fa" "Bacteria" ≠ specOFile "a.fa.fa" "Bacteria" :=
  ⟨rfl, rfl, by decide⟩

/-- C9 amended: the splitter writes exactly one output file per distinct
domain token (the grouped domains are exactly the extracted ones, with no
duplicates, and the written paths are pairwise distinct), and when the
final-extension substring occurs in the input path only at its end, each
path is the input path with `_<domain>` inserted before the extension
(in general `replace` substitutes every occurrence). -/
theorem one_file_per_domain_path {ρ : Type} (recs : List (String × ρ))
    (seqs : List (String × List ρ)) (h : buildSequences recs = .ok seqs)
    (silvaFile ext0 : String) (stem : List Char)
    (hext : fExt? silvaFile = some ext0)
    (hsplit : silvaFile.toList = stem ++ ext0.toList)
    (huniq : ∀ i, i < stem.length →
      ext0.toList.isPrefixOf ((stem ++ ext0.toList).drop i) = false) :
    (seqs.map Prod.fst).Nodup ∧
    (∀ d, d ∈ seqs.map Prod.fst ↔ d ∈ recs.filterMap (fun e => extractDomain e.1)) ∧
    writeTargets silvaFile seqs =
      .ok (seqs.map (fun it =>
        (String.mk (stem ++ ('_' :: it.1.toList) ++ ext0.toList), it.2))) ∧
    (seqs.map (fun it => String.mk (stem ++ ('_' :: it.1.toList) ++ ext0.toList))).Nodup := by
  have hk := buildSeqsFrom_keys recs [] seqs h (by simp)
  refine ⟨hk.1, ?_, writeTargets_eq silvaFile ext0 stem hext hsplit huniq seqs, ?_⟩
  · intro d
    rw [hk.2 d]
    simp
  · have hinj : Function.Injective
        (fun d : String => String.mk (stem ++ ('_' :: d.toList) ++ ext0.toList)) := by
      intro d1 d2 he
      have he2 : stem ++ ('_' :: d1.toList) ++ ext0.toList =
          stem ++ ('_' :: d2.toList) ++ ext0.toList := congrArg String.data he
      have he3 := List.append_cancel_right he2
      have he4 := List.append_cancel_left he3
      have he5 := (List.cons.injEq _ _ _ _ ▸ he4 : _ ∧ _).2
      exact String.toList_inj.mp he5
    have hmap : (seqs.map (fun it => String.mk (stem ++ ('_' :: it.1.toList) ++ ext0.toList))) =
        (seqs.map Prod.fst).map
          (fun d => String.mk (stem ++ ('_' :: d.toList) ++ ext0.toList)) := by
      rw [List.map_map]
      rfl
    rw [hmap]
    exact List.Nodup.map hinj hk.1

theorem one_file_per_domain_path_witness :
    (([("Bacteria", ["r1"]), ("Archaea", ["r2"])] : List (String × List String)).map
      Prod.fst).Nodup ∧
    (∀ d, d ∈ ([("Bacteria", ["r1"]), ("Archaea", ["r2"])] :
        List (String × List String)).map Prod.fst ↔
      d ∈ [("id1 Bacteria;x;", "r1"), ("id2 Archaea;y;", "r2")].filterMap
        (fun e => extractDomain e.1)) ∧
    writeTargets "db.fasta" ([("Bacteria", ["r1"]), ("Archaea", ["r2"])] :
        List (String × List String)) =
      .ok (([("Bacteria", ["r1"]), ("Archaea", ["r2"])] : List (String × List String)).map
        (fun it => (String.mk (['d', 'b'] ++ ('_' :: it.1.toList) ++ ".fasta".toList), it.2))) ∧
    (([("Bacteria", ["r1"]), ("Archaea", ["r2"])] : List (String × List String)).map
      (fun it => String.mk (['d', 'b'] ++ ('_' :: it.1.toList) ++ ".fasta".toList))).Nodup :=
  one_file_per_domain_path [("id1 Bacteria;x;", "r1"), ("id2 Archaea;y;", "r2")]
    [("Bacteria", ["r1"]), ("Archaea", ["r2"])] (by rfl) "db.fasta" ".fasta" ['d', 'b']
    (by rfl) (by rfl) (by decide)

/-- C10: an observed cell survives materialization verbatim (the raw text
of the second tab field, e.g. `007`, is stored uninterpreted at ingestion
and is what `str` renders into the row), a zero-filled cell is the
integer zero rendered `0`, and the per-pair totals are computed by
parsing the stored cells with `int()` (zero for filled cells). -/
theorem cells_verbatim_totals_parsed (st : Store) (names : List String) (st2 : Store)
    (totals : List (String × Int)) (h : computeTotals st names = .ok (st2, totals)) :
    (∀ (st0 : Store) (name line : String) (f0 f1 : List Char) (rest : List (List Char)),
      splitChar '\t' line.toList = f0 :: f1 :: rest →
      ingestLine st0 name line =
        .ok (storeIngest st0 (String.mk f0) name (.vstr (String.mk f1)))) ∧
    (∀ p s raw, cellGet st p s = some (Val.vstr raw) →
      cellGet st2 p s = some (Val.vstr raw) ∧ pyValStr (Val.vstr raw) = raw) ∧
    (∀ p inner s, dictGet? st p = some inner → s ∈ names → dictGet? inner s = none →
      cellGet st2 p s = some (Val.vint 0) ∧ pyValStr (Val.vint 0) = "0") ∧
    totals = st.map (fun e => (e.1, innerTotal e.2 names)) := by
  have hget := computeTotals_get st names st2 totals h
  refine ⟨fun st0 name line f0 f1 rest hsp => ingestLine_split_ok st0 name line f0 f1 rest hsp,
    ?_, ?_, computeTotals_totals st names st2 totals h⟩
  · intro p s raw hc
    unfold cellGet at hc ⊢
    cases hg : dictGet? st p with
    | none =>
      rw [hg] at hc
      exact Option.noConfusion hc
    | some inner =>
      rw [hg] at hc
      simp only [Option.some_bind] at hc
      rcases (hget p).2 inner hg with ⟨inner2, t, hg2, hz⟩
      rw [hg2]
      simp only [Option.some_bind]
      exact ⟨zeroFill_preserves names inner inner2 0 t hz s _ hc, rfl⟩
  · intro p inner s hg hs hnone
    rcases (hget p).2 inner hg with ⟨inner2, t, hg2, hz⟩
    unfold cellGet
    rw [hg2]
    simp only [Option.some_bind]
    have hval := zeroFill_get names inner inner2 0 t hz s hs
    rw [hnone] at hval
    simp only [Option.getD_none] at hval
    exact ⟨hval, rfl⟩

theorem cells_verbatim_totals_parsed_witness :
    (∀ (st0 : Store) (name line : String) (f0 f1 : List Char) (rest : List (List Char)),
      splitChar '\t' line.toList = f0 :: f1 :: rest →
      ingestLine st0 name line =
        .ok (storeIngest st0 (String.mk f0) name (.vstr (String.mk f1)))) ∧
    (∀ p s raw, cellGet [("A", [("S1", Val.vstr "007")])] p s = some (Val.vstr raw) →
      cellGet [("A", [("S1", Val.vstr "007"), ("S2", Val.vint 0)])] p s =
        some (Val.vstr raw) ∧ pyValStr (Val.vstr raw) = raw) ∧
    (∀ p inner s, dictGet? [("A", [("S1", Val.vstr "007")])] p = some inner →
      s ∈ ["S1", "S2"] → dictGet? inner s = none →
      cellGet [("A", [("S1", Val.vstr "007"), ("S2", Val.vint 0)])] p s =
        some (Val.vint 0) ∧ pyValStr (Val.vint 0) = "0") ∧
    ([("A", (7 : Int))] : List (String × Int)) =
      ([("A", [("S1", Val.vstr "007")])] : Store).map
        (fun e => (e.1, innerTotal e.2 ["S1", "S2"])) :=
  cells_verbatim_totals_parsed [("A", [("S1", Val.vstr "007")])] ["S1", "S2"]
    [("A", [("S1", Val.vstr "007"), ("S2", Val.vint 0)])] [("A", 7)] (by rfl)
